import Mathlib

/-!
Verification of the go-persist WAL key-value store (Jipok/go-persist).

The development shallowly embeds the Store layer of `wal.go` and the
PersistMap layer of the map source file.  Go byte strings are modelled as
`List Char` (the WAL is UTF-8 text and all framing bytes — `'\n'`, `' '`,
the op letter — are ASCII, so a scalar-value list is a faithful view of the
byte string for every operation the code performs on it).  Machine `int32`
counters are modelled as `Nat` (the claims never exercise overflow).
Fallible Go functions return `Except`/`Option`; a Go runtime panic (nil-map
dereference) is modelled as an explicit error outcome.
-/

set_option linter.unusedVariables false

abbrev Bytes := List Char

/-- The WAL header constant `WalHeader = "go-persist 1"` from `wal.go`. -/
def walHeaderStr : Bytes := "go-persist 1".data

/-- The header line written to a fresh file: `WalHeader + "\n"`. -/
def walHeaderLine : Bytes := walHeaderStr ++ ['\n']

/-- `bufio.Reader.ReadSlice('\n')`: bytes up to the first LF (LF dropped from
the returned line, consumed from the stream).  `none` models the `io.EOF`
error returned when the stream ends before a LF is found. -/
def readLine : Bytes → Option (Bytes × Bytes)
  | [] => none
  | c :: cs =>
    if c = '\n' then some ([], cs)
    else match readLine cs with
      | none => none
      | some (l, r) => some (c :: l, r)

/-- One parsed WAL record: op byte, key bytes, value bytes (`readRecord`'s
`op, key, value` result; the op is a single byte in the source). -/
structure WalRec where
  op : Char
  key : Bytes
  value : Bytes
deriving DecidableEq

/-- Errors of `readRecord` in `wal.go`.  `eofIncomplete` is `io.EOF`
(clean end of file or an incomplete trailing record); the other two are the
malformed-header errors (`"invalid record header: too short"`,
`"invalid record header format: missing space after operation"`). -/
inductive ReadErr where
  | eofIncomplete
  | headerTooShort
  | headerNoSpace
deriving DecidableEq

/-- `readRecord` from `wal.go`: read the header line; require at least 3
bytes before the LF; op is byte 0; byte 1 must be a space; the key is the
rest; then read the value line (its LF is required, else `io.EOF`). -/
def readRecord (cs : Bytes) : Except ReadErr (WalRec × Bytes) :=
  match readLine cs with
  | none => .error .eofIncomplete
  | some (op :: sp :: k0 :: krest, rest) =>
    if sp = ' ' then
      match readLine rest with
      | none => .error .eofIncomplete
      | some (v, rest2) => .ok (⟨op, k0 :: krest, v⟩, rest2)
    else .error .headerNoSpace
  | some (_, _) => .error .headerTooShort

instance {ε α : Type} [DecidableEq ε] [DecidableEq α] :
    DecidableEq (Except ε α) := fun x y =>
  match x, y with
  | .ok a, .ok b =>
    if h : a = b then .isTrue (by rw [h]) else .isFalse (fun hc => h (Except.ok.inj hc))
  | .error a, .error b =>
    if h : a = b then .isTrue (by rw [h]) else .isFalse (fun hc => h (Except.error.inj hc))
  | .ok _, .error _ => .isFalse (fun hc => Except.noConfusion hc)
  | .error _, .ok _ => .isFalse (fun hc => Except.noConfusion hc)

/-- The orphan-records table (`s.orphanRecords`, an `xsync.Map` from full
key to the raw value string).  Keys are kept unique. -/
abbrev Tab := List (Bytes × Bytes)

/-- `xsync.Map.Delete`. -/
def tabErase (k : Bytes) (t : Tab) : Tab :=
  t.filter (fun p => decide (p.1 ≠ k))

/-- `xsync.Map.Store` (insert or overwrite). -/
def tabStore (k v : Bytes) (t : Tab) : Tab :=
  (k, v) :: tabErase k t

/-- `xsync.Map.Load`. -/
def tabGet (k : Bytes) (t : Tab) : Option Bytes :=
  (t.find? (fun p => decide (p.1 = k))).map (·.2)

/-- The per-record action of `processRecords` when no registered map claims
the key (`wal.go` lines 231-239): `S` stores the raw value string, `D`
deletes, any other op is skipped. -/
def applyRec (t : Tab) (r : WalRec) : Tab :=
  if r.op = 'S' then tabStore r.key r.value t
  else if r.op = 'D' then tabErase r.key t
  else t

/-- The record-reading loop of `processRecords` (fuel-indexed so that it is
structurally recursive; `replayAll` supplies sufficient fuel).  `io.EOF`
ends the loop cleanly; a malformed-header error aborts, returning the error
together with the table built so far (the Go code has already stored those
records in `s.orphanRecords` when it returns the error). -/
def replayFuel : Nat → Bytes → Tab → Tab × Option ReadErr
  | 0, _, t => (t, none)
  | n + 1, cs, t =>
    match readRecord cs with
    | .error .eofIncomplete => (t, none)
    | .error e => (t, some e)
    | .ok (r, rest) => replayFuel n rest (applyRec t r)

/-- Replay of the record stream after the header line (the loop of
`processRecords` over `recordsChan`). -/
def replayAll (cs : Bytes) (t : Tab) : Tab × Option ReadErr :=
  replayFuel cs.length cs t

-- ### Basic parsing lemmas

theorem readLine_spec {cs l r : Bytes} (h : readLine cs = some (l, r)) :
    cs = l ++ '\n' :: r ∧ '\n' ∉ l := by
  induction cs generalizing l r with
  | nil => simp [readLine] at h
  | cons c cs ih =>
    by_cases hc : c = '\n'
    · simp [readLine, hc] at h
      simp [hc, h.1, h.2]
    · simp only [readLine, if_neg hc] at h
      cases hr : readLine cs with
      | none => rw [hr] at h; simp at h
      | some p =>
        obtain ⟨l0, r0⟩ := p
        rw [hr] at h
        simp at h
        obtain ⟨hl, hr2⟩ := h
        obtain ⟨hcs, hnl⟩ := ih hr
        subst hl hr2
        constructor
        · simp [hcs]
        · simp [hnl, Ne.symm hc]

/-- `readLine` of a newline-free line glued to the rest of the stream. -/
theorem readLine_append {l : Bytes} (r : Bytes) (hl : '\n' ∉ l) :
    readLine (l ++ '\n' :: r) = some (l, r) := by
  induction l with
  | nil => simp [readLine]
  | cons c l ih =>
    simp at hl
    have hc : ¬ c = '\n' := fun h => hl.1 h.symm
    simp [readLine, hc, ih hl.2]

theorem readLine_shrink {cs l r : Bytes} (h : readLine cs = some (l, r)) :
    r.length < cs.length := by
  have := (readLine_spec h).1
  subst this
  simp
  omega

theorem readRecord_shrink {cs rest : Bytes} {r : WalRec}
    (h : readRecord cs = .ok (r, rest)) : rest.length < cs.length := by
  unfold readRecord at h
  cases h1 : readLine cs with
  | none => rw [h1] at h; simp at h
  | some p =>
    obtain ⟨l, r1⟩ := p
    rw [h1] at h
    match l, h with
    | op :: sp :: k0 :: krest, h =>
      by_cases hsp : sp = ' '
      · simp only [if_pos hsp] at h
        cases h2 : readLine r1 with
        | none => rw [h2] at h; simp at h
        | some q =>
          obtain ⟨v, r2⟩ := q
          rw [h2] at h
          simp at h
          have hs1 := readLine_shrink h1
          have hs2 := readLine_shrink h2
          obtain ⟨_, hrest⟩ := h
          subst hrest
          omega
      · simp [if_neg hsp] at h

/-- Enough fuel makes `replayFuel` independent of the exact fuel value. -/
theorem replayFuel_congr (f1 : Nat) :
    ∀ f2 cs t, cs.length ≤ f1 → (cs : Bytes).length ≤ f2 →
      replayFuel f1 cs t = replayFuel f2 cs t := by
  induction f1 using Nat.strong_induction_on with
  | _ f1 ih =>
    intro f2 cs t h1 h2
    match f1, f2 with
    | 0, 0 => rfl
    | 0, f2 + 1 =>
      have : cs = [] := List.length_eq_zero.mp (Nat.le_zero.mp h1)
      subst this
      simp [replayFuel, readRecord, readLine]
    | f1 + 1, 0 =>
      have : cs = [] := List.length_eq_zero.mp (Nat.le_zero.mp h2)
      subst this
      simp [replayFuel, readRecord, readLine]
    | f1 + 1, f2 + 1 =>
      show replayFuel (f1 + 1) cs t = replayFuel (f2 + 1) cs t
      unfold replayFuel
      cases h : readRecord cs with
      | error e => cases e <;> rfl
      | ok p =>
        obtain ⟨r, rest⟩ := p
        have hlt := readRecord_shrink h
        exact ih f1 (Nat.lt_succ_self f1) f2 rest (applyRec t r)
          (by omega) (by omega)

theorem replayFuel_succ (n : Nat) (cs : Bytes) (t : Tab) :
    replayFuel (n + 1) cs t =
      match readRecord cs with
      | .error .eofIncomplete => (t, none)
      | .error e => (t, some e)
      | .ok (r, rest) => replayFuel n rest (applyRec t r) := rfl

/-- `replayAll` steps over one successfully parsed record. -/
theorem replayAll_step {cs rest : Bytes} {r : WalRec} {t : Tab}
    (h : readRecord cs = .ok (r, rest)) :
    replayAll cs t = replayAll rest (applyRec t r) := by
  have hlt := readRecord_shrink h
  unfold replayAll
  obtain ⟨n, hcs⟩ : ∃ n, cs.length = n + 1 := by
    cases hc : cs.length with
    | zero =>
      have : cs = [] := List.length_eq_zero.mp hc
      subst this
      simp [readRecord, readLine] at h
    | succ n => exact ⟨n, rfl⟩
  rw [hcs, replayFuel_succ, h]
  exact replayFuel_congr n rest.length rest (applyRec t r)
    (by omega) (le_refl _)

theorem replayAll_nil (t : Tab) : replayAll [] t = (t, none) := by
  simp [replayAll, replayFuel]

-- ### Orphan-table lemmas

theorem tabGet_store_self (k v : Bytes) (t : Tab) :
    tabGet k (tabStore k v t) = some v := by
  simp [tabGet, tabStore, List.find?]

theorem tabGet_erase (k k' : Bytes) (t : Tab) :
    tabGet k (tabErase k' t) = if k = k' then none else tabGet k t := by
  induction t with
  | nil => simp [tabGet, tabErase]
  | cons p t ih =>
    obtain ⟨pk, pv⟩ := p
    by_cases hpk : pk = k'
    · subst hpk
      by_cases hk : k = pk
      · subst hk
        simpa [tabErase, tabGet, List.find?] using ih
      · simp only [tabErase, List.filter] at ih ⊢
        simp only [decide_not]
        simp [tabGet, List.find?, Ne.symm hk] at ih ⊢
        simpa [if_neg hk] using ih
    · by_cases hk : k = pk
      · subst hk
        have hne : ¬ k = k' := hpk
        simp [tabErase, tabGet, List.find?, hpk, hne]
      · simp only [tabErase] at ih ⊢
        simp [tabGet, List.find?, hpk, Ne.symm hk] at ih ⊢
        exact ih

theorem tabGet_erase_self (k : Bytes) (t : Tab) :
    tabGet k (tabErase k t) = none := by
  simpa using tabGet_erase k k t

theorem tabGet_erase_other {k k' : Bytes} (hne : k ≠ k') (t : Tab) :
    tabGet k (tabErase k' t) = tabGet k t := by
  simpa [if_neg hne] using tabGet_erase k k' t

theorem tabGet_store_other {k k' : Bytes} (hne : k ≠ k') (v : Bytes) (t : Tab) :
    tabGet k (tabStore k' v t) = tabGet k t := by
  have h := tabGet_erase_other hne t
  simp only [tabGet] at h
  simp [tabGet, tabStore, List.find?, Ne.symm hne, h]

-- ### Key validator (`ValidateKey` in `wal.go`)

/-- The loop of `ValidateKey`: iterate over the string; ASCII bytes
(`b < 0x80`) are rejected when `b < 0x20` or `b = 0x7F`; otherwise the full
rune is decoded and rejected when `0x7F ≤ r ≤ 0x9F`; the byte position `pos`
advances by one for ASCII and by the rune's UTF-8 size otherwise.  A `some
(pos, c)` result models the returned error, which carries the byte position
and the offending byte/rune. -/
def validateKeyChars : Bytes → Nat → Option (Nat × Char)
  | [], _ => none
  | c :: rest, pos =>
    if c.toNat < 0x80 then
      if c.toNat < 0x20 ∨ c.toNat = 0x7F then some (pos, c)
      else validateKeyChars rest (pos + 1)
    else
      if 0x7F ≤ c.toNat ∧ c.toNat ≤ 0x9F then some (pos, c)
      else validateKeyChars rest (pos + c.utf8Size)

/-- `ValidateKey key`: `none` is a nil error (valid key). -/
def validateKey (k : Bytes) : Option (Nat × Char) :=
  validateKeyChars k 0

/-- The code points the spec forbids in keys: U+0000–U+001F, U+007F and
U+0080–U+009F. -/
def ForbiddenCP (c : Char) : Prop :=
  c.toNat < 0x20 ∨ c.toNat = 0x7F ∨ (0x80 ≤ c.toNat ∧ c.toNat ≤ 0x9F)

instance (c : Char) : Decidable (ForbiddenCP c) := by
  unfold ForbiddenCP
  infer_instance

theorem utf8Size_ascii {c : Char} (h : c.toNat < 0x80) : c.utf8Size = 1 := by
  have hv : c.val ≤ 0x7F := by
    have h2 : c.val.toNat ≤ 0x7F := Nat.lt_succ_iff.mp h
    exact UInt32.le_def.mpr (by exact_mod_cast h2)
  simp [Char.utf8Size, hv]

/-- The loop accepts exactly the keys free of forbidden code points. -/
theorem validateKeyChars_none_iff (k : Bytes) (pos : Nat) :
    validateKeyChars k pos = none ↔ ∀ c ∈ k, ¬ ForbiddenCP c := by
  induction k generalizing pos with
  | nil => simp [validateKeyChars]
  | cons c rest ih =>
    by_cases hA : c.toNat < 0x80
    · by_cases hr : c.toNat < 0x20 ∨ c.toNat = 0x7F
      · simp only [validateKeyChars, if_pos hA, if_pos hr]
        constructor
        · intro h; cases h
        · intro h
          exact absurd (by unfold ForbiddenCP; omega) (h c (by simp))
      · simp only [validateKeyChars, if_pos hA, if_neg hr, ih]
        constructor
        · intro h d hd
          rcases List.mem_cons.mp hd with h1 | h1
          · subst h1; unfold ForbiddenCP; omega
          · exact h d h1
        · intro h d hd
          exact h d (List.mem_cons_of_mem _ hd)
    · by_cases hr : 0x7F ≤ c.toNat ∧ c.toNat ≤ 0x9F
      · simp only [validateKeyChars, if_neg hA, if_pos hr]
        constructor
        · intro h; cases h
        · intro h
          exact absurd (by unfold ForbiddenCP; omega) (h c (by simp))
      · simp only [validateKeyChars, if_neg hA, if_neg hr, ih]
        constructor
        · intro h d hd
          rcases List.mem_cons.mp hd with h1 | h1
          · subst h1; unfold ForbiddenCP; omega
          · exact h d h1
        · intro h d hd
          exact h d (List.mem_cons_of_mem _ hd)

/-- On failure the loop reports the first forbidden code point together
with its byte position (UTF-8 length of the preceding valid prefix). -/
theorem validateKeyChars_some (k : Bytes) (pos i : Nat) (c : Char)
    (h : validateKeyChars k pos = some (i, c)) :
    ForbiddenCP c ∧ ∃ pre post, k = pre ++ c :: post ∧
      (∀ d ∈ pre, ¬ ForbiddenCP d) ∧
      i = pos + (pre.map Char.utf8Size).sum := by
  induction k generalizing pos with
  | nil => simp [validateKeyChars] at h
  | cons a rest ih =>
    by_cases hA : a.toNat < 0x80
    · by_cases hr : a.toNat < 0x20 ∨ a.toNat = 0x7F
      · simp only [validateKeyChars, if_pos hA, if_pos hr] at h
        simp only [Option.some.injEq, Prod.mk.injEq] at h
        obtain ⟨hi, hc⟩ := h
        subst hc hi
        exact ⟨by unfold ForbiddenCP; omega, [], rest, rfl, by simp, by simp⟩
      · simp only [validateKeyChars, if_pos hA, if_neg hr] at h
        obtain ⟨hf, pre, post, hk, hpre, hi⟩ := ih (pos + 1) h
        refine ⟨hf, a :: pre, post, by simp [hk], ?_, ?_⟩
        · intro d hd
          rcases List.mem_cons.mp hd with h1 | h1
          · subst h1; unfold ForbiddenCP; omega
          · exact hpre d h1
        · simp [hi, utf8Size_ascii hA]
          omega
    · by_cases hr : 0x7F ≤ a.toNat ∧ a.toNat ≤ 0x9F
      · simp only [validateKeyChars, if_neg hA, if_pos hr] at h
        simp only [Option.some.injEq, Prod.mk.injEq] at h
        obtain ⟨hi, hc⟩ := h
        subst hc hi
        exact ⟨by unfold ForbiddenCP; omega, [], rest, rfl, by simp, by simp⟩
      · simp only [validateKeyChars, if_neg hA, if_neg hr] at h
        obtain ⟨hf, pre, post, hk, hpre, hi⟩ := ih (pos + a.utf8Size) h
        refine ⟨hf, a :: pre, post, by simp [hk], ?_, ?_⟩
        · intro d hd
          rcases List.mem_cons.mp hd with h1 | h1
          · subst h1; unfold ForbiddenCP; omega
          · exact hpre d h1
        · simp [hi]
          omega

/-- A key accepted by the validator contains no newline byte. -/
theorem validateKey_no_newline {k : Bytes} (h : validateKey k = none) :
    '\n' ∉ k := by
  intro hmem
  have := (validateKeyChars_none_iff k 0).mp h '\n' hmem
  exact this (by unfold ForbiddenCP; left; decide)

-- ### The Store and its operations (`wal.go`)

/-- A registered `PersistMap` as the Store sees it during Shrink and Stats:
its namespace name and its in-memory data.  Values are represented by their
encoded byte image (the JSON codec is an opaque injective encoder for the
values this development manipulates), which is exactly what
`writeRecords` emits for each entry. -/
structure MapSt where
  name : Bytes
  data : List (Bytes × Bytes)
deriving DecidableEq

/-- The `Store` struct of `wal.go` restricted to the state the claims
observe.  `fOpen` is whether `s.f` is an open handle; `tablesNil` records
that `Close` has set `persistMaps`/`orphanRecords` to nil; `file` is the
byte content of the WAL file at `s.path`; `pending` is `pendingRecords`. -/
structure Store where
  loaded : Bool
  fOpen : Bool
  tablesNil : Bool
  shrinking : Bool
  autoShrinkOn : Bool
  pending : List Bytes
  file : Bytes
  orphans : Tab
  maps : List MapSt
  totalWALRecords : Nat
deriving DecidableEq

/-- Outcomes of Store operations.  `nilMapPanic` models the Go runtime
panic of calling a method on a nil `xsync.Map`; `ioClosedFile` the
`os.ErrClosed` failure of writing to a closed handle; `ioFailureTmp` an
environment failure of `os.Create` for the shrink temp file. -/
inductive ApiErr where
  | keyNotFound
  | notLoaded
  | shrinkInProgress
  | invalidKey (pos : Nat) (c : Char)
  | ioClosedFile
  | ioFailureTmp
  | nilMapPanic
  | autoShrinkActive
deriving DecidableEq

/-- The two-line byte image of a record, as built by `write` ( `"S "+key+"\n"`
then `value+"\n"` ) and `Delete` ( `"D "+key+"\n"` then `"\n"` ). -/
def recImage (r : WalRec) : Bytes :=
  (r.op :: ' ' :: r.key) ++ '\n' :: (r.value ++ ['\n'])

/-- `Store.write`: guard on `loaded`, validate the key, append one set
record, bump the counter, and mirror the image into `pendingRecords` while
a shrink is running.  The value argument is its encoded byte image
(`json.Marshal` output; it contains no LF). -/
def storeWrite (s : Store) (k v : Bytes) : Except ApiErr Store :=
  if s.loaded = false then .error .notLoaded
  else match validateKey k with
  | some (i, c) => .error (.invalidKey i c)
  | none =>
    if s.fOpen = false then .error .ioClosedFile
    else
      let img := recImage ⟨'S', k, v⟩
      let s2 := { s with file := s.file ++ img,
                         totalWALRecords := s.totalWALRecords + 1 }
      .ok (if s2.shrinking then { s2 with pending := s2.pending ++ [img] } else s2)

/-- `Store.Set` = `write` + `orphanRecords.Store`. -/
def storeSet (s : Store) (k v : Bytes) : Except ApiErr Store :=
  match storeWrite s k v with
  | .error e => .error e
  | .ok s2 =>
    if s2.tablesNil then .error .nilMapPanic
    else .ok { s2 with orphans := tabStore k v s2.orphans }

/-- `Store.Delete`: guard on `loaded` only — the key is **not** validated —
then append one delete record verbatim, drop the key from the orphan table
and bump the counter (mirroring into `pendingRecords` while shrinking). -/
def storeDelete (s : Store) (k : Bytes) : Except ApiErr Store :=
  if s.loaded = false then .error .notLoaded
  else if s.fOpen = false then .error .ioClosedFile
  else if s.tablesNil then .error .nilMapPanic
  else
    let img := recImage ⟨'D', k, []⟩
    let s2 := { s with file := s.file ++ img,
                       orphans := tabErase k s.orphans,
                       totalWALRecords := s.totalWALRecords + 1 }
    .ok (if s2.shrinking then { s2 with pending := s2.pending ++ [img] } else s2)

/-- The orphan-table lookup step of the generic `Get` (the raw entry before
the typed conversion; typed conversion is modelled separately for C6). -/
def storeGetRaw (s : Store) (k : Bytes) : Except ApiErr Bytes :=
  if s.loaded = false then .error .notLoaded
  else if s.tablesNil then .error .nilMapPanic
  else match tabGet k s.orphans with
    | none => .error .keyNotFound
    | some v => .ok v

/-- `Store.FSyncAll`: guard on `loaded`, `persistMaps.Range` (nil panic if
closed), then `f.Sync()`. -/
def fsyncAll (s : Store) : Except ApiErr Store :=
  if s.loaded = false then .error .notLoaded
  else if s.tablesNil then .error .nilMapPanic
  else if s.fOpen = false then .error .ioClosedFile
  else .ok s

/-- `Store.Close`: guard on `loaded`, stop the background goroutines, final
sync, set `persistMaps`/`orphanRecords` to nil and close the file.  The
source never resets `s.loaded`. -/
def closeStore (s : Store) : Except ApiErr Store :=
  if s.loaded = false then .error .notLoaded
  else .ok { s with fOpen := false, tablesNil := true }

/-- `Store.StartAutoShrink`: guard on `loaded`, then fail only when the
auto-shrink goroutine already exists. -/
def startAutoShrink (s : Store) : Except ApiErr Store :=
  if s.loaded = false then .error .notLoaded
  else if s.autoShrinkOn then .error .autoShrinkActive
  else .ok { s with autoShrinkOn := true }

/-- Full WAL key of a map entry: `pm.prefix + key` with
`prefix = mapName + ":"`. -/
def mapFullKey (m : MapSt) (k : Bytes) : Bytes := m.name ++ ':' :: k

/-- The set records Shrink's snapshot phase writes: one per orphan entry
(`orphanRecords.Range`), then one per entry of every registered map
(`pm.writeRecords`). -/
def shrinkRecs (s : Store) : List WalRec :=
  s.orphans.map (fun p => ⟨'S', p.1, p.2⟩) ++
    (s.maps.map (fun m => m.data.map (fun p => ⟨'S', mapFullKey m p.1, p.2⟩))).flatten

/-- `Store.Shrink`, sequential execution (no concurrent writer, so
`pendingRecords` stays empty through the drain loop and final sealing).
`tmpOk` is whether `os.Create(path + ".tmp")` succeeds.  When it fails the
source returns **without** clearing the `shrinking` flag (every other error
path calls `stopShrinking`). -/
def shrinkStore (s : Store) (tmpOk : Bool) : Store × Option ApiErr :=
  if s.loaded = false then (s, some .notLoaded)
  else if s.shrinking then (s, some .shrinkInProgress)
  else
    let s1 := { s with shrinking := true, pending := [] }
    if tmpOk = false then (s1, some .ioFailureTmp)
    else if s1.tablesNil then (s1, some .nilMapPanic)
    else
      let recs := shrinkRecs s1
      ({ s1 with shrinking := false,
                 file := walHeaderLine ++ (recs.map recImage).flatten,
                 totalWALRecords := recs.length }, none)

/-- `Store.Stats`: live key count (orphans plus each map's `Size()`) and
the WAL record counter. -/
def statsStore (s : Store) : Nat × Nat :=
  (s.orphans.length + (s.maps.map (fun m => m.data.length)).sum,
   s.totalWALRecords)

/-- The live keys of the store: orphan-table keys plus the full keys of
every registered map's entries. -/
def liveKeys (s : Store) : List Bytes :=
  s.orphans.map (·.1) ++
    (s.maps.map (fun m => m.data.map (fun p => mapFullKey m p.1))).flatten

-- ### Open (`Store.Open` + `processRecords`), no maps registered

/-- Errors of `Store.Open`. -/
inductive OpenErr where
  | headerReadFailed
  | invalidHeader
  | malformed (e : ReadErr)
deriving DecidableEq

/-- ASCII whitespace for `strings.TrimSpace` (the header comparison; the
WAL header line only ever contains ASCII). -/
def isSpaceByte (c : Char) : Bool :=
  c = ' ' ∨ c = '\t' ∨ c = '\n' ∨ c = '\x0b' ∨ c = '\x0c' ∨ c = '\r'

def trimSpace (l : Bytes) : Bytes :=
  ((l.dropWhile isSpaceByte).reverse.dropWhile isSpaceByte).reverse

/-- A `New()` store attached to a file image (nothing loaded yet). -/
def newStore (file : Bytes) : Store :=
  { loaded := false, fOpen := false, tablesNil := false, shrinking := false,
    autoShrinkOn := false, pending := [], file := file, orphans := [],
    maps := [], totalWALRecords := 0 }

/-- `Store.Open` followed by `processRecords`, for a store with no
registered maps (every record takes the orphan branch of the dispatch
loop).  An empty file gets the header written; otherwise the first line
must trim to the exact header string.  A malformed record aborts: the store
keeps the partially filled orphan table but `loaded` stays `false`, so no
key is observable.  On success `loaded` is set last. -/
def openStore (file : Bytes) : Store × Option OpenErr :=
  if file = [] then
    ({ newStore walHeaderLine with loaded := true, fOpen := true }, none)
  else match readLine file with
    | none => (newStore file, some .headerReadFailed)
    | some (l, rest) =>
      if trimSpace l = walHeaderStr then
        match replayAll rest [] with
        | (tab, some e) => ({ newStore file with orphans := tab }, some (.malformed e))
        | (tab, none) =>
          ({ newStore file with loaded := true, fOpen := true, orphans := tab }, none)
      else (newStore file, some .invalidHeader)

-- ### Mutation sequences (C1)

/-- One legal API mutation on the Store: `Set key value` or `Delete key`. -/
inductive Mut where
  | mset (k v : Bytes)
  | mdel (k : Bytes)
deriving DecidableEq

def mutKey : Mut → Bytes
  | .mset k _ => k
  | .mdel k => k

/-- The record each mutation appends to the WAL. -/
def mutRec : Mut → WalRec
  | .mset k v => ⟨'S', k, v⟩
  | .mdel k => ⟨'D', k, []⟩

def encodeMuts (ms : List Mut) : Bytes :=
  (ms.map (fun m => recImage (mutRec m))).flatten

/-- The in-memory effect of a mutation on the orphan table. -/
def applyMut (t : Tab) : Mut → Tab
  | .mset k v => tabStore k v t
  | .mdel k => tabErase k t

def applyMuts (t : Tab) (ms : List Mut) : Tab := ms.foldl applyMut t

/-- A mutation the API performs and that round-trips through the WAL: the
set path runs the key through `ValidateKey`; both paths need a non-empty
key (`readRecord` requires at least one key byte) and the key/value bytes
must be LF-free (the validator already guarantees this for set keys; the
codec guarantees it for values). -/
def LegalMut : Mut → Prop
  | .mset k v => validateKey k = none ∧ k ≠ [] ∧ '\n' ∉ v
  | .mdel k => k ≠ [] ∧ '\n' ∉ k

instance : DecidablePred LegalMut := by
  intro m
  cases m <;> (unfold LegalMut; infer_instance)

/-- Parsing a well-formed record image glued to any continuation yields
exactly that record. -/
theorem readRecord_image {op : Char} {k v : Bytes} (rest : Bytes)
    (hop : op ≠ '\n') (hk : '\n' ∉ k) (hk0 : k ≠ []) (hv : '\n' ∉ v) :
    readRecord (recImage ⟨op, k, v⟩ ++ rest) = .ok (⟨op, k, v⟩, rest) := by
  obtain ⟨k0, krest, hkk⟩ : ∃ k0 krest, k = k0 :: krest := by
    cases k with
    | nil => exact absurd rfl hk0
    | cons a b => exact ⟨a, b, rfl⟩
  have harr : recImage ⟨op, k, v⟩ ++ rest =
      (op :: ' ' :: k) ++ '\n' :: (v ++ '\n' :: rest) := by
    simp [recImage]
  have hl1 : '\n' ∉ op :: ' ' :: k := by
    intro hmem
    rcases List.mem_cons.mp hmem with h | h
    · exact hop h.symm
    · rcases List.mem_cons.mp h with h2 | h2
      · exact absurd h2 (by decide)
      · exact hk h2
  rw [harr]
  unfold readRecord
  rw [readLine_append _ hl1]
  subst hkk
  simp [readLine_append rest hv]

/-- `mutRec` images of legal mutations parse back to themselves. -/
theorem readRecord_mut {m : Mut} (hm : LegalMut m) (rest : Bytes) :
    readRecord (recImage (mutRec m) ++ rest) = .ok (mutRec m, rest) := by
  cases m with
  | mset k v =>
    obtain ⟨hvk, hne, hv⟩ := hm
    exact readRecord_image rest (by decide) (validateKey_no_newline hvk) hne hv
  | mdel k =>
    obtain ⟨hne, hk⟩ := hm
    exact readRecord_image rest (by decide) hk hne (by simp)

theorem applyRec_mutRec (t : Tab) (m : Mut) :
    applyRec t (mutRec m) = applyMut t m := by
  cases m <;> simp [applyRec, mutRec, applyMut]

/-- Replay walks an encoded mutation sequence record by record and then
continues with whatever follows. -/
theorem replayAll_encodeMuts (ms : List Mut) (hleg : ∀ m ∈ ms, LegalMut m)
    (x : Bytes) (t : Tab) :
    replayAll (encodeMuts ms ++ x) t = replayAll x (applyMuts t ms) := by
  induction ms generalizing t with
  | nil => simp [encodeMuts, applyMuts]
  | cons m ms ih =>
    have hm : LegalMut m := hleg m (by simp)
    have hms : ∀ m0 ∈ ms, LegalMut m0 := fun m0 h0 => hleg m0 (by simp [h0])
    have harr : encodeMuts (m :: ms) ++ x =
        recImage (mutRec m) ++ (encodeMuts ms ++ x) := by
      simp [encodeMuts]
    rw [harr, replayAll_step (readRecord_mut hm (encodeMuts ms ++ x)),
      applyRec_mutRec]
    exact ih hms (applyMut t m)

/-- The last mutation of the sequence that touches key `k`. -/
def lastOpOn (k : Bytes) (ms : List Mut) : Option Mut :=
  ms.reverse.find? (fun m => decide (mutKey m = k))

/-- Last-write-wins for the in-memory table produced by replay. -/
theorem tabGet_applyMuts (ms : List Mut) (t : Tab) (k : Bytes) :
    tabGet k (applyMuts t ms) =
      match lastOpOn k ms with
      | some (.mset _ v) => some v
      | some (.mdel _) => none
      | none => tabGet k t := by
  induction ms generalizing t with
  | nil => simp [applyMuts, lastOpOn]
  | cons m ms ih =>
    have hstep : applyMuts t (m :: ms) = applyMuts (applyMut t m) ms := rfl
    have hrev : lastOpOn k (m :: ms) =
        (lastOpOn k ms).or (if mutKey m = k then some m else none) := by
      unfold lastOpOn
      rw [List.reverse_cons, List.find?_append]
      cases hfind : List.find? (fun m => decide (mutKey m = k)) ms.reverse with
      | some m0 => simp
      | none =>
        by_cases hkm : mutKey m = k
        · simp [List.find?, hkm]
        · simp [List.find?, hkm]
    rw [hstep, ih, hrev]
    cases hlast : lastOpOn k ms with
    | some m0 => cases m0 <;> simp
    | none =>
      simp only [Option.none_or]
      by_cases hkm : mutKey m = k
      · rw [if_pos hkm]
        cases m with
        | mset k' v =>
          simp only [mutKey] at hkm
          subst hkm
          simp [applyMut, tabGet_store_self]
        | mdel k' =>
          simp only [mutKey] at hkm
          subst hkm
          simp [applyMut, tabGet_erase_self]
      · rw [if_neg hkm]
        cases m with
        | mset k' v =>
          simp only [mutKey] at hkm
          simpa [applyMut] using tabGet_store_other (fun h => hkm h.symm) v t
        | mdel k' =>
          simp only [mutKey] at hkm
          simpa [applyMut] using tabGet_erase_other (fun h => hkm h.symm) t

def runMut (s : Store) : Mut → Except ApiErr Store
  | .mset k v => storeSet s k v
  | .mdel k => storeDelete s k

/-- A sequence of `Set`/`Delete` calls against the Store. -/
def runMuts (s : Store) : List Mut → Except ApiErr Store
  | [] => .ok s
  | m :: ms =>
    match runMut s m with
    | .error e => .error e
    | .ok s2 => runMuts s2 ms

/-- On an open, non-shrinking store, legal mutations all succeed, append
exactly their record images to the file in call order, and update the
orphan table accordingly. -/
theorem runMuts_ok (ms : List Mut) (hleg : ∀ m ∈ ms, LegalMut m) :
    ∀ s : Store, s.loaded = true → s.fOpen = true → s.shrinking = false →
      s.tablesNil = false →
      ∃ s' : Store, runMuts s ms = .ok s' ∧
        s'.file = s.file ++ encodeMuts ms ∧
        s'.orphans = applyMuts s.orphans ms ∧
        s'.loaded = true ∧ s'.fOpen = true ∧ s'.shrinking = false ∧
        s'.tablesNil = false := by
  induction ms with
  | nil =>
    intro s h1 h2 h3 h4
    exact ⟨s, rfl, by simp [encodeMuts], rfl, h1, h2, h3, h4⟩
  | cons m ms ih =>
    intro s h1 h2 h3 h4
    have hm : LegalMut m := hleg m (by simp)
    have hms : ∀ m0 ∈ ms, LegalMut m0 := fun m0 h0 => hleg m0 (by simp [h0])
    have hstep : ∃ s2 : Store, runMut s m = .ok s2 ∧
        s2.file = s.file ++ recImage (mutRec m) ∧
        s2.orphans = applyMut s.orphans m ∧
        s2.loaded = true ∧ s2.fOpen = true ∧ s2.shrinking = false ∧
        s2.tablesNil = false := by
      cases m with
      | mset k v =>
        obtain ⟨hvk, hne, hv⟩ := hm
        refine ⟨{ s with
                  file := s.file ++ recImage (WalRec.mk 'S' k v)
                  totalWALRecords := s.totalWALRecords + 1
                  orphans := tabStore k v s.orphans }, ?_, ?_, ?_, ?_, ?_, ?_, ?_⟩ <;>
          simp [runMut, storeSet, storeWrite, h1, h2, h3, h4, hvk, mutRec,
            applyMut]
      | mdel k =>
        refine ⟨{ s with
                  file := s.file ++ recImage (WalRec.mk 'D' k [])
                  orphans := tabErase k s.orphans
                  totalWALRecords := s.totalWALRecords + 1 }, ?_, ?_, ?_, ?_, ?_, ?_, ?_⟩ <;>
          simp [runMut, storeDelete, h1, h2, h3, h4, mutRec, applyMut]
    obtain ⟨s2, hrun, hfile, horph, g1, g2, g3, g4⟩ := hstep
    obtain ⟨s', hrun', hfile', horph', k1, k2, k3, k4⟩ := ih hms s2 g1 g2 g3 g4
    refine ⟨s', ?_, ?_, ?_, k1, k2, k3, k4⟩
    · simp [runMuts, hrun, hrun']
    · rw [hfile', hfile]
      simp [encodeMuts]
    · rw [horph', horph]
      rfl

theorem walHeaderLine_eq : walHeaderLine = walHeaderStr ++ ['\n'] := rfl

/-- Opening a header plus a legally encoded mutation sequence succeeds and
loads the orphan table that the mutations left in memory. -/
theorem openStore_encodeMuts (ms : List Mut) (hleg : ∀ m ∈ ms, LegalMut m) :
    openStore (walHeaderLine ++ encodeMuts ms) =
      ({ newStore (walHeaderLine ++ encodeMuts ms) with
          loaded := true, fOpen := true, orphans := applyMuts [] ms }, none) := by
  have harr : walHeaderLine ++ encodeMuts ms =
      walHeaderStr ++ '\n' :: encodeMuts ms := by
    simp [walHeaderLine]
  have hnl : '\n' ∉ walHeaderStr := by decide
  have hr : replayAll (encodeMuts ms) ([] : Tab) = (applyMuts [] ms, none) := by
    have := replayAll_encodeMuts ms hleg [] []
    simpa [replayAll_nil] using this
  have htrim : trimSpace walHeaderStr = walHeaderStr := by decide
  rw [harr]
  unfold openStore
  rw [if_neg (by simp [walHeaderStr])]
  rw [readLine_append _ hnl]
  simp [htrim, hr]

/-- The outcome the last-write-wins claim predicts for `get(k)` after
recovery: the value of the last set when the last operation on `k` was a
set; `KeyNotFound` when it was a delete or when `k` was never mutated. -/
def expectedGet (ms : List Mut) (k : Bytes) : Except ApiErr Bytes :=
  match lastOpOn k ms with
  | some (.mset _ v) => .ok v
  | some (.mdel _) => .error .keyNotFound
  | none => .error .keyNotFound

theorem openStore_empty :
    (openStore []).1 = { newStore walHeaderLine with loaded := true, fOpen := true } := by
  simp [openStore]

/-- C1.  Last-write-wins recovery: for every key `k` and every sequence of
legal `Set`/`Delete` mutations, after Close followed by `Open(path)` on the
same file (Close only flushes; the reopened store replays the file the
mutations produced, in file order, newer records overriding older ones),
`get(k)` returns the value of the last set when the last operation on `k`
was a set, and fails with `KeyNotFound` when the last operation on `k` was
a delete. -/
theorem c1_last_write_wins_recovery (ms : List Mut)
    (hleg : ∀ m ∈ ms, LegalMut m) (k : Bytes) :
    ∃ s1 s2 : Store,
      runMuts (openStore []).1 ms = .ok s1 ∧
      openStore s1.file = (s2, none) ∧
      storeGetRaw s2 k = expectedGet ms k := by
  obtain ⟨s1, hrun, hfile, horph, l1, l2, l3, l4⟩ :=
    runMuts_ok ms hleg (openStore []).1
      (by rw [openStore_empty]) (by rw [openStore_empty])
      (by rw [openStore_empty]; rfl) (by rw [openStore_empty]; rfl)
  have hfile1 : s1.file = walHeaderLine ++ encodeMuts ms := by
    rw [hfile, openStore_empty]
    rfl
  refine ⟨s1, _, hrun, by rw [hfile1]; exact openStore_encodeMuts ms hleg, ?_⟩
  have htab := tabGet_applyMuts ms [] k
  have hnone : tabGet k ([] : Tab) = none := rfl
  rw [hnone] at htab
  simp only [storeGetRaw, newStore, expectedGet]
  cases hlast : lastOpOn k ms with
  | none =>
    rw [hlast] at htab
    simp [htab]
  | some m0 =>
    rw [hlast] at htab
    cases m0 with
    | mset k0 v0 => simp at htab; simp [htab]
    | mdel k0 => simp at htab; simp [htab]

/-- Witness for C1 at a concrete mutation sequence: two sets of `b` with a
set/delete of `a` interleaved; recovery returns the second value of `b`. -/
theorem c1_last_write_wins_recovery_witness :
    (∀ m ∈ ([Mut.mset ['a'] ['1'], Mut.mset ['b'] ['2'], Mut.mdel ['a'],
             Mut.mset ['b'] ['3']] : List Mut), LegalMut m) ∧
    (∃ s1 s2 : Store,
      runMuts (openStore []).1
          [Mut.mset ['a'] ['1'], Mut.mset ['b'] ['2'], Mut.mdel ['a'],
           Mut.mset ['b'] ['3']] = .ok s1 ∧
      openStore s1.file = (s2, none) ∧
      storeGetRaw s2 ['b'] =
        expectedGet [Mut.mset ['a'] ['1'], Mut.mset ['b'] ['2'], Mut.mdel ['a'],
           Mut.mset ['b'] ['3']] ['b']) :=
  ⟨by decide, c1_last_write_wins_recovery _ (by decide) ['b']⟩

-- ### Malformed and incomplete trailing records (C4, C5)

/-- A header line `readRecord` rejects: fewer than 3 bytes before the LF,
or second byte not a space. -/
def MalformedHdr (h : Bytes) : Prop :=
  h.length < 3 ∨ h.get? 1 ≠ some ' '

instance (h : Bytes) : Decidable (MalformedHdr h) := by
  unfold MalformedHdr
  infer_instance

theorem readLine_no_newline {cs : Bytes} (h : '\n' ∉ cs) :
    readLine cs = none := by
  induction cs with
  | nil => rfl
  | cons c cs ih =>
    simp at h
    have hc : ¬ c = '\n' := fun h2 => h.1 h2.symm
    simp [readLine, hc, ih h.2]

theorem replayAll_eof {cs : Bytes} (t : Tab)
    (h : readRecord cs = .error .eofIncomplete) :
    replayAll cs t = (t, none) := by
  unfold replayAll
  cases hl : cs.length with
  | zero => rfl
  | succ n => rw [replayFuel_succ, h]

/-- A bad header aborts the replay with one of the two malformed-header
errors. -/
theorem replayAll_malformed {bad : Bytes} (rest : Bytes) (t : Tab)
    (hnl : '\n' ∉ bad) (hm : MalformedHdr bad) :
    ∃ e, replayAll (bad ++ '\n' :: rest) t = (t, some e) ∧
      (e = .headerTooShort ∨ e = .headerNoSpace) := by
  have hread : readRecord (bad ++ '\n' :: rest) = .error .headerTooShort ∨
      readRecord (bad ++ '\n' :: rest) = .error .headerNoSpace := by
    unfold readRecord
    rw [readLine_append rest hnl]
    match bad, hm with
    | [], _ => simp
    | [a], _ => simp
    | [a, b], _ => simp
    | a :: b :: c :: l, hm =>
      have hb : ¬ b = ' ' := by
        rcases hm with h3 | h3
        · simp at h3
          omega
        · simpa using h3
      simp [hb]
  have hlen : ∃ n, (bad ++ '\n' :: rest).length = n + 1 := by
    refine ⟨(bad ++ rest).length, ?_⟩
    simp
    omega
  obtain ⟨n, hn⟩ := hlen
  rcases hread with h | h <;>
    exact ⟨_, by unfold replayAll; rw [hn, replayFuel_succ, h], by simp⟩

/-- C4.  A record with a malformed header before EOF makes `Open` fail with
a malformed-record error; the store stays unloaded — no key is observable —
and every subsequent Store operation fails with the not-loaded error. -/
theorem c4_malformed_record_aborts_load (good : List Mut)
    (hleg : ∀ m ∈ good, LegalMut m) (bad rest : Bytes)
    (hnl : '\n' ∉ bad) (hm : MalformedHdr bad) :
    ∃ (s : Store) (e : ReadErr),
      openStore (walHeaderLine ++ (encodeMuts good ++ (bad ++ '\n' :: rest))) =
        (s, some (.malformed e)) ∧
      (e = .headerTooShort ∨ e = .headerNoSpace) ∧
      s.loaded = false ∧
      (∀ k, storeGetRaw s k = .error .notLoaded) ∧
      (∀ k v, storeSet s k v = .error .notLoaded) ∧
      (∀ k, storeDelete s k = .error .notLoaded) ∧
      (∀ b, (shrinkStore s b).2 = some .notLoaded) ∧
      fsyncAll s = .error .notLoaded ∧
      startAutoShrink s = .error .notLoaded := by
  obtain ⟨e, hrep, he⟩ := replayAll_malformed rest (applyMuts [] good) hnl hm
  have hrep2 : replayAll (encodeMuts good ++ (bad ++ '\n' :: rest)) [] =
      (applyMuts [] good, some e) := by
    rw [replayAll_encodeMuts good hleg _ [], hrep]
  have hnlh : '\n' ∉ walHeaderStr := by decide
  have htrim : trimSpace walHeaderStr = walHeaderStr := by decide
  have harr : walHeaderLine ++ (encodeMuts good ++ (bad ++ '\n' :: rest)) =
      walHeaderStr ++ '\n' :: (encodeMuts good ++ (bad ++ '\n' :: rest)) := by
    simp [walHeaderLine]
  refine ⟨{ newStore (walHeaderLine ++ (encodeMuts good ++ (bad ++ '\n' :: rest))) with
            orphans := applyMuts [] good }, e, ?_, he, ?_, ?_, ?_, ?_, ?_, ?_, ?_⟩
  · rw [harr]
    unfold openStore
    rw [if_neg (by simp [walHeaderStr]), readLine_append _ hnlh]
    simp [htrim, hrep2, harr]
  all_goals simp [storeGetRaw, storeSet, storeWrite, storeDelete, shrinkStore,
    fsyncAll, startAutoShrink, newStore]

/-- Witness for C4 at the repository test input `TestStore_InvalidRecordMidFile`:
one good record, then the header line `INVALID_RECORD`. -/
theorem c4_malformed_record_aborts_load_witness :
    (∀ m ∈ ([Mut.mset "first".data "100".data] : List Mut), LegalMut m) ∧
    ('\n' ∉ "INVALID_RECORD".data) ∧ MalformedHdr "INVALID_RECORD".data ∧
    (∃ (s : Store) (e : ReadErr),
      openStore (walHeaderLine ++ (encodeMuts [Mut.mset "first".data "100".data] ++
          ("INVALID_RECORD".data ++ '\n' :: "garbage\nS second\n200\n".data))) =
        (s, some (.malformed e)) ∧
      (e = .headerTooShort ∨ e = .headerNoSpace) ∧
      s.loaded = false ∧
      (∀ k, storeGetRaw s k = .error .notLoaded) ∧
      (∀ k v, storeSet s k v = .error .notLoaded) ∧
      (∀ k, storeDelete s k = .error .notLoaded) ∧
      (∀ b, (shrinkStore s b).2 = some .notLoaded) ∧
      fsyncAll s = .error .notLoaded ∧
      startAutoShrink s = .error .notLoaded) :=
  ⟨by decide, by decide, by decide,
    c4_malformed_record_aborts_load _ (by decide) _ _ (by decide) (by decide)⟩

/-- A trailing fragment forming an incomplete record: either the header
line itself never reaches a LF, or a well-formed header line is followed by
a value line with no terminating LF (possibly empty). -/
def IncompleteTail (t : Bytes) : Prop :=
  (t ≠ [] ∧ '\n' ∉ t) ∨
  (∃ op k v, t = (op :: ' ' :: k) ++ '\n' :: v ∧
    op ≠ '\n' ∧ k ≠ [] ∧ '\n' ∉ k ∧ '\n' ∉ v)

theorem replayAll_incompleteTail {t : Bytes} (tab : Tab)
    (ht : IncompleteTail t) : replayAll t tab = (tab, none) := by
  apply replayAll_eof
  rcases ht with ⟨hne, hnl⟩ | ⟨op, k, v, heq, hop, hk0, hk, hv⟩
  · unfold readRecord
    rw [readLine_no_newline hnl]
  · have hl1 : '\n' ∉ op :: ' ' :: k := by
      intro hmem
      rcases List.mem_cons.mp hmem with h | h
      · exact hop h.symm
      · rcases List.mem_cons.mp h with h2 | h2
        · exact absurd h2 (by decide)
        · exact hk h2
    obtain ⟨k0, krest, hkk⟩ : ∃ k0 krest, k = k0 :: krest := by
      cases k with
      | nil => exact absurd rfl hk0
      | cons a b => exact ⟨a, b, rfl⟩
    subst heq
    unfold readRecord
    rw [readLine_append _ hl1]
    subst hkk
    simp [readLine_no_newline hv]

/-- Counterexample to C5 as frozen: the file ends with an incomplete record
for key `a`, but an earlier complete record set `a`, so `get("a")` succeeds
with the earlier value instead of failing with `KeyNotFound`. -/
theorem c5_incomplete_trailing_counterexample :
    IncompleteTail ('S' :: ' ' :: 'a' :: '\n' :: ['2']) ∧
    (openStore (walHeaderLine ++
        (encodeMuts [Mut.mset ['a'] ['1']] ++ ('S' :: ' ' :: 'a' :: '\n' :: ['2'])))).2 = none ∧
    storeGetRaw (openStore (walHeaderLine ++
        (encodeMuts [Mut.mset ['a'] ['1']] ++ ('S' :: ' ' :: 'a' :: '\n' :: ['2'])))).1 ['a'] =
      .ok ['1'] ∧
    ¬ storeGetRaw (openStore (walHeaderLine ++
        (encodeMuts [Mut.mset ['a'] ['1']] ++ ('S' :: ' ' :: 'a' :: '\n' :: ['2'])))).1 ['a'] =
      .error .keyNotFound := by
  refine ⟨Or.inr ⟨'S', ['a'], ['2'], rfl, by decide, by decide, by decide, by decide⟩, ?_, ?_, ?_⟩ <;>
    decide

/-- C5 (amended).  An incomplete trailing record — header line or value
line missing its terminating LF — is ignored: Open succeeds, every
complete record before it is loaded normally (`get` agrees everywhere with
the store loaded from the file without the trailing fragment), and `get`
of the incomplete record's key fails with `KeyNotFound` whenever the
complete records leave that key absent. -/
theorem c5_incomplete_trailing_ignored (ms : List Mut)
    (hleg : ∀ m ∈ ms, LegalMut m) (tail : Bytes) (ht : IncompleteTail tail) :
    ∃ s1 s2 : Store,
      openStore (walHeaderLine ++ (encodeMuts ms ++ tail)) = (s1, none) ∧
      openStore (walHeaderLine ++ encodeMuts ms) = (s2, none) ∧
      s1.loaded = true ∧ s1.orphans = s2.orphans ∧
      (∀ k, storeGetRaw s1 k = storeGetRaw s2 k) ∧
      (∀ k, tabGet k (applyMuts [] ms) = none →
        storeGetRaw s1 k = .error .keyNotFound) := by
  have hnlh : '\n' ∉ walHeaderStr := by decide
  have htrim : trimSpace walHeaderStr = walHeaderStr := by decide
  have hrep : replayAll (encodeMuts ms ++ tail) ([] : Tab) =
      (applyMuts [] ms, none) := by
    rw [replayAll_encodeMuts ms hleg tail [], replayAll_incompleteTail _ ht]
  have harr : walHeaderLine ++ (encodeMuts ms ++ tail) =
      walHeaderStr ++ '\n' :: (encodeMuts ms ++ tail) := by
    simp [walHeaderLine]
  refine ⟨{ newStore (walHeaderLine ++ (encodeMuts ms ++ tail)) with
            loaded := true
            fOpen := true
            orphans := applyMuts [] ms }, _, ?_, openStore_encodeMuts ms hleg,
          rfl, rfl, fun k => rfl, ?_⟩
  · rw [harr]
    unfold openStore
    rw [if_neg (by simp [walHeaderStr]), readLine_append _ hnlh]
    simp [htrim, hrep, harr]
  · intro k hk
    simp [storeGetRaw, newStore, hk]

/-- Witness for C5 (amended) at the spec's scenario 3/4 input: a complete
record for `complete`, then `S incomplete\n456` with no final LF. -/
theorem c5_incomplete_trailing_ignored_witness :
    (∀ m ∈ ([Mut.mset "complete".data "123".data] : List Mut), LegalMut m) ∧
    IncompleteTail ('S' :: ' ' :: "incomplete".data ++ '\n' :: "456".data) ∧
    (∃ s1 s2 : Store,
      openStore (walHeaderLine ++ (encodeMuts [Mut.mset "complete".data "123".data] ++
          ('S' :: ' ' :: "incomplete".data ++ '\n' :: "456".data))) = (s1, none) ∧
      openStore (walHeaderLine ++ encodeMuts [Mut.mset "complete".data "123".data]) = (s2, none) ∧
      s1.loaded = true ∧ s1.orphans = s2.orphans ∧
      (∀ k, storeGetRaw s1 k = storeGetRaw s2 k) ∧
      (∀ k, tabGet k (applyMuts [] [Mut.mset "complete".data "123".data]) = none →
        storeGetRaw s1 k = .error .keyNotFound)) :=
  ⟨by decide, Or.inr ⟨'S', "incomplete".data, "456".data, rfl, by decide, by decide,
      by decide, by decide⟩,
    c5_incomplete_trailing_ignored _ (by decide) _
      (Or.inr ⟨'S', "incomplete".data, "456".data, rfl, by decide, by decide,
        by decide, by decide⟩)⟩

-- ### Close is not terminal (C3) and the stuck shrink flag (C8)

/-- C3.  Evaluation at the failing input: `Close` never resets `loaded`
(the source omits `s.loaded = false`), so after a successful Close the
subsequent operations do **not** fail with the not-loaded error — `Set` and
`Delete` fail with a closed-file write error, `Get`/`FSyncAll`/`Shrink`
hit the nil maps (runtime panic), and `StartAutoShrink` even succeeds —
contradicting the claim that every subsequent operation fails with
NotLoaded. -/
theorem c3_close_not_terminal_divergence :
    ∃ s : Store,
      closeStore { newStore walHeaderLine with loaded := true, fOpen := true } = .ok s ∧
      s.loaded = true ∧
      storeSet s ['k'] ['1'] = .error .ioClosedFile ∧
      ¬ storeSet s ['k'] ['1'] = .error .notLoaded ∧
      storeDelete s ['k'] = .error .ioClosedFile ∧
      ¬ storeDelete s ['k'] = .error .notLoaded ∧
      storeGetRaw s ['k'] = .error .nilMapPanic ∧
      ¬ storeGetRaw s ['k'] = .error .notLoaded ∧
      fsyncAll s = .error .nilMapPanic ∧
      (shrinkStore s true).2 = some .nilMapPanic ∧
      ¬ (shrinkStore s true).2 = some .notLoaded ∧
      (∃ s2, startAutoShrink s = .ok s2) := by
  refine ⟨_, rfl, ?_, ?_, ?_, ?_, ?_, ?_, ?_, ?_, ?_, ?_, ⟨_, rfl⟩⟩ <;> decide

/-- C8.  Evaluation at the failing input: when `os.Create` of the shrink
temp file fails, `Shrink` returns without clearing the `shrinking` flag
(every other error path calls `stopShrinking`), so the next `Shrink` call
fails with ShrinkInProgress although no shrink is active — contradicting
the claim that ShrinkInProgress occurs exactly while another shrink is
running, and in particular never after a previous Shrink call returned an
error. -/
theorem c8_shrink_flag_stuck_divergence :
    ∃ s1 : Store,
      shrinkStore { newStore walHeaderLine with loaded := true, fOpen := true }
        false = (s1, some .ioFailureTmp) ∧
      s1.shrinking = true ∧
      shrinkStore s1 true = (s1, some .shrinkInProgress) := by
  refine ⟨_, rfl, ?_, ?_⟩ <;> decide

-- ### Shrink preservation (C2)

theorem shrinkRecs_ops (s : Store) : ∀ r ∈ shrinkRecs s, r.op = 'S' := by
  intro r hr
  simp [shrinkRecs] at hr
  rcases hr with ⟨a, b, hab, h⟩ | ⟨m, hm, a, b, hab, h⟩ <;> rw [← h]

theorem shrinkRecs_keys (s : Store) :
    (shrinkRecs s).map (fun r => r.key) = liveKeys s := by
  simp [shrinkRecs, liveKeys, Function.comp_def]

theorem liveKeys_length (s : Store) :
    (liveKeys s).length =
      s.orphans.length + (s.maps.map (fun m => m.data.length)).sum := by
  simp [liveKeys, Function.comp_def]

/-- A list of records whose keys enumerate `keys` without duplicates has
exactly one record per key of `keys`. -/
theorem filter_key_length {recs : List WalRec} {keys : List Bytes}
    (h : recs.map (fun r => r.key) = keys) (hnd : keys.Nodup) :
    ∀ k ∈ keys, (recs.filter (fun r => decide (r.key = k))).length = 1 := by
  induction recs generalizing keys with
  | nil =>
    subst h
    intro k hk
    simp at hk
  | cons r recs ih =>
    subst h
    simp only [List.map_cons, List.nodup_cons] at hnd
    intro k hk
    rcases List.mem_cons.mp hk with hk1 | hk1
    · have hz : recs.filter (fun r => decide (r.key = k)) = [] := by
        rw [List.filter_eq_nil]
        intro a ha
        simp only [decide_eq_true_eq]
        intro hak
        have hmem : a.key ∈ recs.map (fun r => r.key) :=
          List.mem_map_of_mem (fun r => r.key) ha
        rw [hak, hk1] at hmem
        exact hnd.1 hmem
      simp [List.filter, hk1.symm, hz]
    · have hne : ¬ r.key = k := fun hc => hnd.1 (hc ▸ hk1)
      have := ih rfl hnd.2 k hk1
      simp [List.filter, hne, this]

/-- C2.  Shrink preservation (sequential shrink cycle, the pending buffer
stays empty): the live keys after Shrink equal the live keys before, the
compacted WAL holds exactly one set record per live key and no delete
records, and the record counter reported by Stats equals the number of
live keys immediately after Shrink returns. -/
theorem c2_shrink_preserves_live_keys (s : Store)
    (hld : s.loaded = true) (hsh : s.shrinking = false)
    (htn : s.tablesNil = false) (hnd : (liveKeys s).Nodup) :
    ∃ s' : Store,
      shrinkStore s true = (s', none) ∧
      liveKeys s' = liveKeys s ∧
      s'.file = walHeaderLine ++ ((shrinkRecs s).map recImage).flatten ∧
      (∀ r ∈ shrinkRecs s, r.op = 'S') ∧
      (∀ k ∈ liveKeys s,
        ((shrinkRecs s).filter (fun r => decide (r.key = k))).length = 1) ∧
      statsStore s' = ((liveKeys s).length, (liveKeys s).length) := by
  have hrecs1 : shrinkRecs { s with shrinking := true, pending := [] } =
      shrinkRecs s := rfl
  refine ⟨{ s with
            shrinking := false
            pending := []
            file := walHeaderLine ++ ((shrinkRecs s).map recImage).flatten
            totalWALRecords := (shrinkRecs s).length }, ?_, ?_, rfl,
      shrinkRecs_ops s, filter_key_length (shrinkRecs_keys s) hnd, ?_⟩
  · simp [shrinkStore, hld, hsh, htn, hrecs1]
    exact ⟨rfl, rfl⟩
  · simp [liveKeys]
  · have hlen : (shrinkRecs s).length = (liveKeys s).length := by
      rw [← shrinkRecs_keys s, List.length_map]
    simp [statsStore, hlen, liveKeys_length]

/-- Witness for C2: a store with one orphan record and one registered map
holding one entry. -/
theorem c2_shrink_preserves_live_keys_witness :
    (let s : Store := {
        loaded := true
        fOpen := true
        tablesNil := false
        shrinking := false
        autoShrinkOn := false
        pending := []
        file := walHeaderLine
        orphans := [(['a'], ['1'])]
        maps := [MapSt.mk ['m'] [(['x'], ['2'])]]
        totalWALRecords := 5 };
      s.loaded = true ∧ s.shrinking = false ∧ s.tablesNil = false ∧
      (liveKeys s).Nodup ∧
      ∃ s' : Store,
        shrinkStore s true = (s', none) ∧
        liveKeys s' = liveKeys s ∧
        s'.file = walHeaderLine ++ ((shrinkRecs s).map recImage).flatten ∧
        (∀ r ∈ shrinkRecs s, r.op = 'S') ∧
        (∀ k ∈ liveKeys s,
          ((shrinkRecs s).filter (fun r => decide (r.key = k))).length = 1) ∧
        statsStore s' = ((liveKeys s).length, (liveKeys s).length)) :=
  ⟨rfl, rfl, rfl, by decide,
    c2_shrink_preserves_live_keys _ rfl rfl rfl (by decide)⟩

-- ### Key validator contract (C9)

/-- C9.  `ValidateKey` succeeds exactly when no code point of the key lies
in U+0000–U+001F, U+007F, or U+0080–U+009F (so `:`, space, and non-BMP
characters pass, and the empty string passes); on failure the returned
error identifies the first offending code point and its byte position. -/
theorem c9_validate_key_contract (k : Bytes) :
    (validateKey k = none ↔ ∀ c ∈ k, ¬ ForbiddenCP c) ∧
    validateKey [] = none ∧
    (∀ i c, validateKey k = some (i, c) → ForbiddenCP c ∧
      ∃ pre post, k = pre ++ c :: post ∧ (∀ d ∈ pre, ¬ ForbiddenCP d) ∧
        i = (pre.map Char.utf8Size).sum) := by
  refine ⟨validateKeyChars_none_iff k 0, rfl, ?_⟩
  intro i c h
  obtain ⟨hf, pre, post, hk, hpre, hi⟩ := validateKeyChars_some k 0 i c h
  exact ⟨hf, pre, post, hk, hpre, by simpa using hi⟩

/-- Witness for C9: the key `": 𝄞"` followed by the C1 control U+009F is
rejected at byte position 6 (1 + 1 + 4 UTF-8 bytes) with that code point. -/
theorem c9_validate_key_contract_witness :
    ForbiddenCP (Char.ofNat 0x9F) ∧
    ∃ pre post, ([':', ' ', Char.ofNat 0x1D11E, Char.ofNat 0x9F] : Bytes) =
        pre ++ Char.ofNat 0x9F :: post ∧
      (∀ d ∈ pre, ¬ ForbiddenCP d) ∧
      6 = (pre.map Char.utf8Size).sum :=
  (c9_validate_key_contract [':', ' ', Char.ofNat 0x1D11E, Char.ofNat 0x9F]).2.2
    6 (Char.ofNat 0x9F) (by decide)

-- ### Delete performs no key validation (C10)

/-- C10 (implicit).  `Store.Delete` never validates the key and never
returns an invalid-key error: on a loaded store with an open file it
appends the delete record built verbatim from the key — even for keys the
set path rejects — while `write` (the set path) fails with the invalid-key
error for exactly those keys. -/
theorem c10_delete_skips_validation (s : Store) (k : Bytes)
    (hld : s.loaded = true) (hop : s.fOpen = true) (htn : s.tablesNil = false)
    (hsh : s.shrinking = false) :
    storeDelete s k = .ok { s with
      file := s.file ++ recImage (WalRec.mk 'D' k [])
      orphans := tabErase k s.orphans
      totalWALRecords := s.totalWALRecords + 1 } ∧
    (∀ (s2 : Store) (k2 : Bytes) i c,
      ¬ storeDelete s2 k2 = .error (.invalidKey i c)) ∧
    (∀ i c, validateKey k = some (i, c) →
      ∀ v, storeWrite s k v = .error (.invalidKey i c)) := by
  refine ⟨?_, ?_, ?_⟩
  · simp [storeDelete, hld, hop, htn, hsh]
  · intro s2 k2 i c
    unfold storeDelete
    split
    · simp
    · split
      · simp
      · split
        · simp
        · simp
  · intro i c hv v
    simp [storeWrite, hld, validateKey] at hv ⊢
    simp [hv]

/-- Witness for C10: deleting the key `"a\n"` + U+0001 — which contains a
newline byte and a control byte, so the set path rejects it — succeeds and
appends the verbatim record. -/
theorem c10_delete_skips_validation_witness :
    (let s : Store := { newStore walHeaderLine with loaded := true, fOpen := true };
     let k : Bytes := ['a', '\n', Char.ofNat 0x01];
     storeDelete s k = .ok { s with
       file := s.file ++ recImage (WalRec.mk 'D' k [])
       orphans := tabErase k s.orphans
       totalWALRecords := s.totalWALRecords + 1 } ∧
     (∀ (s2 : Store) (k2 : Bytes) i c,
       ¬ storeDelete s2 k2 = .error (.invalidKey i c)) ∧
     (∀ i c, validateKey k = some (i, c) →
       ∀ v, storeWrite s k v = .error (.invalidKey i c))) :=
  c10_delete_skips_validation _ _ rfl rfl rfl rfl

-- ### Store-level typed Get (C6)

/-- The Go dynamic types the orphan table can hold in this development:
a Go `string` (either the raw value text loaded from the WAL or a decoded
JSON string) and a decoded `int`. -/
inductive GoVal where
  | vString (s : Bytes)
  | vInt (n : Int)
deriving DecidableEq

inductive TypeTag where
  | tString
  | tInt
deriving DecidableEq

/-- The dynamic type of a stored value (what Go's type assertion
`data.(T)` inspects). -/
def typeOf : GoVal → TypeTag
  | .vString _ => .tString
  | .vInt _ => .tInt

/-- JSON string decoding for escape-free strings: strip the surrounding
quotes (what `json.Unmarshal` does on such inputs). -/
def parseJsonStringChars (cs : Bytes) : Option Bytes :=
  match cs with
  | '"' :: rest =>
    if rest.getLast? = some '"' then
      let inner := rest.dropLast
      if inner.all (fun c => decide (c ≠ '"' ∧ c ≠ '\\')) then some inner
      else none
    else none
  | _ => none

/-- JSON decoding of a non-negative decimal integer. -/
def parseJsonIntChars (cs : Bytes) : Option Int :=
  if cs ≠ [] ∧ cs.all Char.isDigit then
    some (Int.ofNat (cs.foldl (fun n c => n * 10 + (c.toNat - 48)) 0))
  else none

/-- `json.Unmarshal` into the target type (opaque codec, modelled on the
two value shapes above). -/
def jsonDecode : TypeTag → Bytes → Option GoVal
  | .tString, cs => (parseJsonStringChars cs).map .vString
  | .tInt, cs => (parseJsonIntChars cs).map .vInt

/-- The orphan table when entries are dynamic values (raw strings as
loaded from the WAL, or decoded values cached by a previous typed Get). -/
abbrev DynTab := List (Bytes × GoVal)

def dynErase (k : Bytes) (t : DynTab) : DynTab :=
  t.filter (fun p => decide (p.1 ≠ k))

def dynStore (k : Bytes) (v : GoVal) (t : DynTab) : DynTab :=
  (k, v) :: dynErase k t

def dynGet (k : Bytes) (t : DynTab) : Option GoVal :=
  (t.find? (fun p => decide (p.1 = k))).map (·.2)

inductive GetErr where
  | notLoaded
  | keyNotFound
  | unmarshalFailed
  | notConvertible
deriving DecidableEq

/-- The generic `Get[T]` of `wal.go`: guard on `loaded`; look the key up in
the orphan table; **first** try the type assertion `data.(T)` and return
the entry unchanged on success; otherwise require the entry to be a string,
decode it into `T`, cache the decoded value with `orphanRecords.Store`, and
return it. -/
def storeGetTyped (tag : TypeTag) (loaded : Bool) (t : DynTab) (k : Bytes) :
    Except GetErr (GoVal × DynTab) :=
  if loaded = false then .error .notLoaded
  else match dynGet k t with
    | none => .error .keyNotFound
    | some v =>
      if typeOf v = tag then .ok (v, t)
      else match v with
        | .vString raw =>
          match jsonDecode tag raw with
          | none => .error .unmarshalFailed
          | some d => .ok (d, dynStore k d t)
        | _ => .error .notConvertible

/-- Counterexample to C6 as frozen: for `T = string` the type assertion
`data.(T)` matches the **raw** entry loaded from the WAL before the decode
branch is reached, so `Get` returns the undecoded JSON text (quote bytes
included) unchanged, decodes nothing and caches nothing — not the decoded
value with memoization that the claim requires for a raw entry. -/
theorem c6_typed_get_raw_string_counterexample :
    storeGetTyped .tString true [(['a'], .vString ['"', 'h', 'i', '"'])] ['a'] =
      .ok (.vString ['"', 'h', 'i', '"'], [(['a'], .vString ['"', 'h', 'i', '"'])]) ∧
    jsonDecode .tString ['"', 'h', 'i', '"'] = some (.vString ['h', 'i']) ∧
    (GoVal.vString ['"', 'h', 'i', '"'] ≠ GoVal.vString ['h', 'i']) ∧
    ¬ storeGetTyped .tString true [(['a'], .vString ['"', 'h', 'i', '"'])] ['a'] =
      .ok (.vString ['h', 'i'],
        dynStore ['a'] (.vString ['h', 'i']) [(['a'], .vString ['"', 'h', 'i', '"'])]) := by
  refine ⟨?_, ?_, ?_, ?_⟩ <;> decide

theorem dynGet_store_self (k : Bytes) (v : GoVal) (t : DynTab) :
    dynGet k (dynStore k v t) = some v := by
  simp [dynGet, dynStore, List.find?]

theorem jsonDecode_typeOf {tag : TypeTag} {raw : Bytes} {d : GoVal}
    (h : jsonDecode tag raw = some d) : typeOf d = tag := by
  cases tag <;> simp [jsonDecode] at h <;>
    obtain ⟨x, hx, hd⟩ := h <;> rw [← hd] <;> rfl

/-- C6 (amended).  Store-level typed Get performs lazy decode with
memoization, except when the requested type is the string type itself: an
entry whose dynamic type already matches the requested type — including a
raw entry read by `Get[string]` — is returned by value with the table
unchanged; a raw entry read at any other type is decoded, the entry is
replaced by the decoded value (so a second call returns it by value), and
the decoded value is returned; decode failure and non-string entries of
the wrong type fail with the respective conversion errors. -/
theorem c6_typed_get_lazy_decode (tag : TypeTag) (t : DynTab) (k : Bytes) :
    (∀ v, dynGet k t = some v → typeOf v = tag →
      storeGetTyped tag true t k = .ok (v, t)) ∧
    (∀ raw d, dynGet k t = some (.vString raw) → tag ≠ .tString →
      jsonDecode tag raw = some d →
      storeGetTyped tag true t k = .ok (d, dynStore k d t) ∧
      storeGetTyped tag true (dynStore k d t) k = .ok (d, dynStore k d t)) ∧
    (∀ raw, dynGet k t = some (.vString raw) → tag ≠ .tString →
      jsonDecode tag raw = none →
      storeGetTyped tag true t k = .error .unmarshalFailed) ∧
    (∀ n, dynGet k t = some (.vInt n) → tag ≠ .tInt →
      storeGetTyped tag true t k = .error .notConvertible) ∧
    (dynGet k t = none → storeGetTyped tag true t k = .error .keyNotFound) := by
  refine ⟨?_, ?_, ?_, ?_, ?_⟩
  · intro v hv ht
    simp [storeGetTyped, hv, ht]
  · intro raw d hv htag hdec
    have htd : typeOf d = tag := jsonDecode_typeOf hdec
    constructor
    · have hts : ¬ typeOf (GoVal.vString raw) = tag := by
        simpa [typeOf] using fun hc => htag hc.symm
      simp [storeGetTyped, hv, hts, hdec]
    · simp [storeGetTyped, dynGet_store_self, htd]
  · intro raw hv htag hdec
    have hts : ¬ typeOf (GoVal.vString raw) = tag := by
      simpa [typeOf] using fun hc => htag hc.symm
    simp [storeGetTyped, hv, hts, hdec]
  · intro n hv htag
    have hts : ¬ typeOf (GoVal.vInt n) = tag := by
      simpa [typeOf] using fun hc => htag hc.symm
    simp [storeGetTyped, hv, hts]
  · intro hv
    simp [storeGetTyped, hv]

/-- Witness for C6 (amended): `Get[int]` of the raw entry `"42"` decodes,
memoizes, and a second call returns the cached decoded value. -/
theorem c6_typed_get_lazy_decode_witness :
    storeGetTyped .tInt true [(['b'], .vString ['4', '2'])] ['b'] =
      .ok (.vInt 42, dynStore ['b'] (.vInt 42) [(['b'], .vString ['4', '2'])]) ∧
    storeGetTyped .tInt true (dynStore ['b'] (.vInt 42) [(['b'], .vString ['4', '2'])]) ['b'] =
      .ok (.vInt 42, dynStore ['b'] (.vInt 42) [(['b'], .vString ['4', '2'])]) :=
  (c6_typed_get_lazy_decode .tInt [(['b'], .vString ['4', '2'])] ['b']).2.1
    ['4', '2'] (.vInt 42) (by decide) (by decide) (by decide)

-- ### PersistMap.Update cancellation (C7)

/-- The `actionType` selector of `Update[T]`. -/
inductive UpdAction where
  | set
  | del
  | cancel
deriving DecidableEq

/-- The `Update[T]` record handed to the updater callback: current value
(zero value when absent), existence flag, and the action, initialized to
`actionSet`. -/
structure UpdSt (T : Type) where
  value : T
  present : Bool
  action : UpdAction

/-- A `PersistMap` for C7: namespace prefix bytes and the in-memory data. -/
structure PMapSt (T : Type) where
  pfx : Bytes
  data : List (Bytes × T)

def pmLookup {T : Type} (k : Bytes) (d : List (Bytes × T)) : Option T :=
  (d.find? (fun p => decide (p.1 = k))).map (·.2)

def pmErase {T : Type} (k : Bytes) (d : List (Bytes × T)) : List (Bytes × T) :=
  d.filter (fun p => decide (p.1 ≠ k))

def pmStore {T : Type} (k : Bytes) (v : T) (d : List (Bytes × T)) :
    List (Bytes × T) :=
  (k, v) :: pmErase k d

/-- `PersistMap.Update` (immediate tier), sequential, with a healthy write
path: run the updater inside the bucket compute on the current value, then
according to the selected action delete the key and append a `D` record,
or store the new value and append an `S` record (`enc` is the codec), or —
on cancel — return the old value and keep both the entry and the WAL
untouched.  Returns the new state, the WAL record list, and the
`(newValue, exists)` result. -/
def pmUpdate {T : Type} [Inhabited T] (enc : T → Bytes)
    (pm : PMapSt T) (wal : List WalRec) (k : Bytes)
    (updater : UpdSt T → UpdSt T) :
    PMapSt T × List WalRec × Option T :=
  let current := (pmLookup k pm.data).getD default
  let present := (pmLookup k pm.data).isSome
  let upd := updater { value := current, present := present, action := .set }
  match upd.action with
  | .del =>
    ({ pm with data := pmErase k pm.data },
     wal ++ [⟨'D', pm.pfx ++ k, []⟩], none)
  | .set =>
    ({ pm with data := pmStore k upd.value pm.data },
     wal ++ [⟨'S', pm.pfx ++ k, enc upd.value⟩], some upd.value)
  | .cancel =>
    (pm, wal, if present then some current else none)

/-- `PersistMap.UpdateFSync` = `Update` followed by `f.Sync()`; the fsync
changes no state and appends no record. -/
def pmUpdateFSync {T : Type} [Inhabited T] (enc : T → Bytes)
    (pm : PMapSt T) (wal : List WalRec) (k : Bytes)
    (updater : UpdSt T → UpdSt T) :
    PMapSt T × List WalRec × Option T :=
  pmUpdate enc pm wal k updater

/-- C7.  Update cancellation writes nothing: when the updater requests
cancellation, `Update` and `UpdateFSync` leave the in-memory entry
untouched (value and presence unchanged) and append no WAL record. -/
theorem c7_update_cancel_writes_nothing {T : Type} [Inhabited T]
    (enc : T → Bytes) (pm : PMapSt T) (wal : List WalRec) (k : Bytes)
    (updater : UpdSt T → UpdSt T)
    (hc : (updater { value := (pmLookup k pm.data).getD default,
                     present := (pmLookup k pm.data).isSome,
                     action := .set }).action = .cancel) :
    (pmUpdate enc pm wal k updater).1 = pm ∧
    (pmUpdate enc pm wal k updater).2.1 = wal ∧
    (pmUpdateFSync enc pm wal k updater).1 = pm ∧
    (pmUpdateFSync enc pm wal k updater).2.1 = wal := by
  unfold pmUpdateFSync pmUpdate
  simp [hc]

/-- Witness for C7: an updater that always cancels, on a one-entry map. -/
theorem c7_update_cancel_writes_nothing_witness :
    (let pm : PMapSt Int := ⟨['m', ':'], [(['x'], (7 : Int))]⟩;
     let updater : UpdSt Int → UpdSt Int := fun u => { u with action := .cancel };
     (pmUpdate (fun _ => ['0']) pm [] ['x'] updater).1 = pm ∧
     (pmUpdate (fun _ => ['0']) pm [] ['x'] updater).2.1 = [] ∧
     (pmUpdateFSync (fun _ => ['0']) pm [] ['x'] updater).1 = pm ∧
     (pmUpdateFSync (fun _ => ['0']) pm [] ['x'] updater).2.1 = []) :=
  c7_update_cancel_writes_nothing (fun _ => ['0']) _ [] ['x'] _ rfl
